import Mathlib

/-!
Verification of the JFlow workflow engine (src/jflow/workflow.py and
src/jflow/depends.py), shallowly embedded in Lean.

Tasks are Python async functions; we identify each by an opaque numeric
handle.  A parameter's declared default is a Python object; the engine
inspects it only through `hasattr(default, "dependency")` and
`asyncio.iscoroutinefunction(default.dependency)`, which we model by the
`PyVal` record.  The recursive graph builder `Workflow._build_deps` is
modelled with explicit fuel (`buildDepsList`); the Python original has no
termination guard, and exhausting every fuel corresponds to the unbounded
recursion of the source.  The scheduler `Workflow.run` is modelled as a
nondeterministic transition system (`Step`): one transition completes one
in-flight asyncio task, which is faithful to processing the `done` set of
`asyncio.wait` one element at a time.
-/

namespace JFlow

/-- Opaque handle of a Python coroutine function used as a task. -/
abbrev Task := Nat

/-- Result values produced by tasks and stored in the per-run cache.
`sentinel dep isCoro` stands for a `_DependsSentinel` object itself
(leaked as a plain value when its `dependency` is not a coroutine
function). -/
inductive Value where
  | unit
  | nat (n : Nat)
  | str (s : String)
  | sentinel (dep : Task) (isCoro : Bool)
deriving DecidableEq, Repr

/-- A Python object as far as the engine inspects it: the engine probes
only for a `dependency` attribute (carrying a function handle together
with whether `asyncio.iscoroutinefunction` holds of it) and otherwise
passes the object through as an opaque value (`payload`). -/
structure PyVal where
  dependency : Option (Task × Bool)
  payload : Value
deriving DecidableEq, Repr

/-- A parameter's declared default: `inspect._empty` (no default) or some
Python object. -/
inductive PDefault where
  | empty
  | val (o : PyVal)
deriving DecidableEq, Repr

/-- The marker probe used by both `_build_deps` (workflow.py line 38) and
`_exec` (line 108): a default is an injected-dependency marker exactly
when `hasattr(default, "dependency")` holds and `default.dependency` is a
coroutine function; in that case it yields the producer task. -/
def PDefault.markerQ : PDefault → Option Task
  | .val o =>
    match o.dependency with
    | some (t, true) => some t
    | _ => none
  | .empty => none

/-- One entry of `inspect.signature(fn).parameters`. -/
structure Param where
  name : String
  default : PDefault
deriving DecidableEq, Repr

/-- The object built by `Depends(dependency)` in depends.py: a
`_DependsSentinel` storing the callable; `isCoro` records whether the
wrapped callable is a coroutine function. -/
def DependsPy (f : Task) (isCoro : Bool) : PyVal :=
  { dependency := some (f, isCoro), payload := .sentinel f isCoro }

/-- The task registry: each task's declared, ordered parameter list. -/
abbrev Sig := Task → List Param

/-- The direct producers a single `_build_deps` call collects for `fn`
(workflow.py lines 36-40): one entry per parameter whose default passes
the marker probe, in declared order, with multiplicity. -/
def directDeps (sig : Sig) (fn : Task) : List Task :=
  (sig fn).filterMap (fun p => p.default.markerQ)

/-- Association-list lookup, modelling Python `dict.__getitem__` /
`in`. -/
def lookupKV {α : Type} : List (Task × α) → Task → Option α
  | [], _ => none
  | p :: rest, t => if p.1 = t then some p.2 else lookupKV rest t

/-- Python `key in dict`. -/
def memKV {α : Type} (m : List (Task × α)) (t : Task) : Bool :=
  (lookupKV m t).isSome

/-- Python `dict[key] = v`: replace in place if the key exists, else
append, preserving insertion order. -/
def setKV {α : Type} : List (Task × α) → Task → α → List (Task × α)
  | [], t, v => [(t, v)]
  | p :: rest, t, v => if p.1 = t then (t, v) :: rest else p :: setKV rest t v

/-- The keys of an association list in insertion order. -/
def keysOf {α : Type} (m : List (Task × α)) : List Task :=
  m.map (fun p => p.1)

/-- The forward dependency map `Workflow._deps`: task handle to its list
of direct producers, in insertion (post-)order. -/
abbrev DepsMap := List (Task × List Task)

/-- `Workflow._build_deps` iterated over a worklist, with fuel.
`_build_deps(fn)` returns at once when `fn` is memoized; otherwise it
recurses into every marker dependency of `fn` and only afterwards inserts
`fn` into the map (workflow.py lines 31-42) — note that the memo entry is
written only after the recursion, so a dependency cycle recurses forever
(every fuel is exhausted).  Fuel is an artifact of the embedding: it is
also consumed when stepping over worklist elements, and the monotonicity
and sufficiency lemmas below recover the termination behaviour of the
source. -/
def buildDepsList (sig : Sig) : Nat → List Task → DepsMap → Option DepsMap
  | _, [], acc => some acc
  | 0, _ :: _, _ => none
  | fuel + 1, fn :: rest, acc =>
    if memKV acc fn then buildDepsList sig fuel rest acc
    else
      match buildDepsList sig fuel (directDeps sig fn) acc with
      | none => none
      | some acc2 => buildDepsList sig fuel rest (acc2 ++ [(fn, directDeps sig fn)])

/-- Graph construction in `Workflow.__init__`: `_build_deps(fn)` for each
goal in declaration order, starting from an empty map. -/
def buildAll (sig : Sig) (fuel : Nat) (goals : List Task) : Option DepsMap :=
  buildDepsList sig fuel goals []

/-- Transitive reachability along declared marker edges: `ReachG sig g t`
holds when `t` is `g` itself or a direct or transitive producer of `g`. -/
inductive ReachG (sig : Sig) : Task → Task → Prop where
  | refl (t : Task) : ReachG sig t t
  | step {fn d t : Task} : d ∈ directDeps sig fn → ReachG sig d t → ReachG sig fn t

/-- The per-run result cache `cache : fn → result`. -/
abbrev Cache := List (Task × Value)

/-- The errors `Workflow._exec` can raise before or while running a task
body: the `RuntimeError("Missing required param ...")` of line 114, the
`KeyError` of the `cache[dep_fn]` lookup on line 110, and an exception
escaping the awaited task body itself. -/
inductive ExecErr where
  | missingArg (fn : Task) (param : String)
  | keyError (fn : Task) (dep : Task)
  | taskErr (fn : Task) (msg : String)
deriving DecidableEq, Repr

/-- The argument-assembly loop of `Workflow._exec` (lines 104-114):
parameters are processed in declared order; a marker default is replaced
by the producer's cached result, any other concrete default is passed
through unchanged, and a parameter with no default raises at once. -/
def buildKwargs (cache : Cache) (fn : Task) : List Param → Except ExecErr (List (String × Value))
  | [] => .ok []
  | p :: rest =>
    match p.default.markerQ with
    | some dep =>
      match lookupKV cache dep with
      | some v =>
        match buildKwargs cache fn rest with
        | .ok kw => .ok ((p.name, v) :: kw)
        | .error e => .error e
      | none => .error (.keyError fn dep)
    | none =>
      match p.default with
      | .empty => .error (.missingArg fn p.name)
      | .val o =>
        match buildKwargs cache fn rest with
        | .ok kw => .ok ((p.name, o.payload) :: kw)
        | .error e => .error e

/-- A task body: Python-side behaviour of `await fn(**kwargs)`, as a
function of the assembled keyword arguments; it either returns a value or
raises. -/
abbrev Body := Task → List (String × Value) → Except String Value

/-- `Workflow._exec fn cache`: assemble the arguments, then await the
body, propagating its failure tagged with the task. -/
def execTask (sig : Sig) (body : Body) (cache : Cache) (fn : Task) : Except ExecErr Value :=
  match buildKwargs cache fn (sig fn) with
  | .error e => .error e
  | .ok kw =>
    match body fn kw with
    | .ok v => .ok v
    | .error m => .error (.taskErr fn m)

/-! ### Claim C10: marker recognition is by attribute probing -/

/-- Claim C10: dependency-marker recognition is by attribute probing, not
by wrapper type.  A default is treated as an injected dependency exactly
when it has a `dependency` attribute whose value is a coroutine function;
`Depends` around a coroutine function is recognised, `Depends` around a
non-coroutine callable is not a marker: the graph builder records no edge
for it and the invocation adapter passes the sentinel object through
unchanged as the parameter's literal default value. -/
theorem marker_is_attribute_probe :
    (∀ (o : PyVal) (t : Task),
        PDefault.markerQ (.val o) = some t ↔ o.dependency = some (t, true)) ∧
    (∀ f : Task, PDefault.markerQ (.val (DependsPy f true)) = some f) ∧
    (∀ f : Task, PDefault.markerQ (.val (DependsPy f false)) = none) ∧
    (∀ (ps : List Param) (nm : String) (f : Task),
        directDeps (fun _ => Param.mk nm (.val (DependsPy f true)) :: ps) 0 =
          f :: directDeps (fun _ => ps) 0) ∧
    (∀ (ps : List Param) (nm : String) (o : PyVal),
        PDefault.markerQ (.val o) = none →
        directDeps (fun _ => Param.mk nm (.val o) :: ps) 0 = directDeps (fun _ => ps) 0) ∧
    (∀ (cache : Cache) (fn : Task) (nm : String) (o : PyVal)
        (rest : List Param) (kw : List (String × Value)),
        PDefault.markerQ (.val o) = none →
        buildKwargs cache fn rest = .ok kw →
        buildKwargs cache fn (Param.mk nm (.val o) :: rest) = .ok ((nm, o.payload) :: kw)) := by
  refine ⟨?_, ?_, ?_, ?_, ?_, ?_⟩
  · intro o t
    rcases o with ⟨dep, pay⟩
    rcases dep with _ | ⟨f, b⟩
    · simp [PDefault.markerQ]
    · cases b <;> simp [PDefault.markerQ]
  · intro f; rfl
  · intro f; rfl
  · intro ps nm f
    simp [directDeps, PDefault.markerQ, DependsPy]
  · intro ps nm o h
    simp [directDeps, h]
  · intro cache fn nm o rest kw h hrest
    simp only [buildKwargs, h, hrest]

/-- Closed instance of the pass-through behaviour: `Depends` around a
non-coroutine callable supplies the sentinel itself as the argument. -/
theorem marker_is_attribute_probe_witness :
    buildKwargs [] 0 [Param.mk "p" (.val (DependsPy 3 false))] =
      .ok [("p", Value.sentinel 3 false)] :=
  marker_is_attribute_probe.2.2.2.2.2 [] 0 "p" (DependsPy 3 false) [] [] rfl rfl

/-! ### Claim C1: cyclic dependencies -/

/-- A two-task goal set whose markers form a cycle: task 0's parameter
names task 1 as producer and task 1's parameter names task 0. -/
def sigCyc : Sig := fun t =>
  match t with
  | 0 => [Param.mk "y" (.val (DependsPy 1 true))]
  | 1 => [Param.mk "x" (.val (DependsPy 0 true))]
  | _ => []

lemma sigCyc_cycle : ∀ fuel : Nat,
    buildDepsList sigCyc fuel [0] [] = none ∧ buildDepsList sigCyc fuel [1] [] = none := by
  intro fuel
  induction fuel with
  | zero => exact ⟨rfl, rfl⟩
  | succ n ih =>
    constructor
    · show buildDepsList sigCyc (n + 1) [0] [] = none
      have hd : directDeps sigCyc 0 = [1] := rfl
      simp only [buildDepsList, memKV, lookupKV, Option.isSome_none, Bool.false_eq_true,
        if_false, hd, ih.2]
    · show buildDepsList sigCyc (n + 1) [1] [] = none
      have hd : directDeps sigCyc 1 = [0] := rfl
      simp only [buildDepsList, memKV, lookupKV, Option.isSome_none, Bool.false_eq_true,
        if_false, hd, ih.1]

/-- Claim C1 (code bug): on a cyclic goal set, graph construction never
completes — `_build_deps` checks its memo only on entry and writes it
only after recursing, so the cycle recurses without bound (a Python
`RecursionError`), and no `BuildError` naming a task of the cycle is ever
produced.  In the fuel embedding: every fuel is exhausted. -/
theorem cycle_build_diverges_no_builderror :
    ∀ fuel : Nat, buildAll sigCyc fuel [0] = none := by
  intro fuel
  exact (sigCyc_cycle fuel).1

/-! ### Association-list lemmas -/

lemma memKV_iff_keys {α : Type} (m : List (Task × α)) (t : Task) :
    memKV m t = true ↔ t ∈ keysOf m := by
  induction m with
  | nil => simp [memKV, lookupKV, keysOf]
  | cons p rest ih =>
    by_cases h : p.1 = t
    · simp [memKV, lookupKV, keysOf, h]
    · simp only [memKV, lookupKV, if_neg h, keysOf, List.map_cons, List.mem_cons]
      rw [← keysOf, ← memKV, ih]
      constructor
      · exact Or.inr
      · rintro (h1 | h1)
        · exact absurd h1.symm h
        · exact h1

lemma lookupKV_eq_some_of_mem {α : Type} {m : List (Task × α)} {p : Task × α}
    (hnd : (keysOf m).Nodup) (hp : p ∈ m) : lookupKV m p.1 = some p.2 := by
  induction m with
  | nil => cases hp
  | cons q rest ih =>
    have hnd2 : q.1 ∉ keysOf rest ∧ (keysOf rest).Nodup := List.nodup_cons.mp hnd
    rcases List.mem_cons.mp hp with h | h
    · subst h
      simp [lookupKV]
    · have hq : q.1 ≠ p.1 := by
        intro he
        exact hnd2.1 (he ▸ List.mem_map_of_mem (fun r => r.1) h)
      rw [lookupKV, if_neg hq]
      exact ih hnd2.2 h

lemma lookupKV_append_left {α : Type} {m1 : List (Task × α)} (m2 : List (Task × α))
    {t : Task} {v : α} (h : lookupKV m1 t = some v) : lookupKV (m1 ++ m2) t = some v := by
  induction m1 with
  | nil => cases h
  | cons p rest ih =>
    by_cases hp : p.1 = t
    · rw [lookupKV, if_pos hp] at h
      simp [lookupKV, hp, h]
    · rw [lookupKV, if_neg hp] at h
      simp [lookupKV, hp, ih h]

lemma lookupKV_append_right {α : Type} {m1 : List (Task × α)} (m2 : List (Task × α))
    {t : Task} (h : memKV m1 t = false) : lookupKV (m1 ++ m2) t = lookupKV m2 t := by
  induction m1 with
  | nil => rfl
  | cons p rest ih =>
    by_cases hp : p.1 = t
    · simp [memKV, lookupKV, hp] at h
    · rw [memKV, lookupKV, if_neg hp, ← memKV] at h
      simp [lookupKV, hp, ih h]

lemma memKV_append {α : Type} (m1 m2 : List (Task × α)) (t : Task) :
    memKV (m1 ++ m2) t = (memKV m1 t || memKV m2 t) := by
  by_cases h : memKV m1 t = true
  · rw [h]
    rcases Option.isSome_iff_exists.mp h with ⟨v, hv⟩
    simp [memKV, lookupKV_append_left m2 hv]
  · have hf : memKV m1 t = false := by simpa using h
    rw [hf]
    simp [memKV, lookupKV_append_right m2 hf]

lemma lookupKV_setKV {α : Type} (m : List (Task × α)) (k t : Task) (v : α) :
    lookupKV (setKV m k v) t = if k = t then some v else lookupKV m t := by
  induction m with
  | nil => simp [setKV, lookupKV]
  | cons p rest ih =>
    by_cases hp : p.1 = k
    · subst hp
      by_cases ht : p.1 = t <;> simp [setKV, lookupKV, ht]
    · by_cases ht : p.1 = t
      · subst ht
        have : k ≠ p.1 := fun he => hp he.symm
        simp [setKV, lookupKV, hp, this]
      · simp [setKV, lookupKV, hp, ht, ih]

lemma memKV_setKV {α : Type} (m : List (Task × α)) (k t : Task) (v : α) :
    memKV (setKV m k v) t = (decide (k = t) || memKV m t) := by
  by_cases h : k = t <;> simp [memKV, lookupKV_setKV, h]

lemma lookupKV_map_self {α β : Type} {m : List (Task × α)} (f : Task × α → β)
    (hnd : (keysOf m).Nodup) {p : Task × α} (hp : p ∈ m) :
    lookupKV (m.map (fun q => (q.1, f q))) p.1 = some (f p) := by
  have : (p.1, f p) ∈ m.map (fun q => (q.1, f q)) := List.mem_map_of_mem _ hp
  have hk : keysOf (m.map (fun q => (q.1, f q))) = keysOf m := by
    simp [keysOf, List.map_map]
  exact lookupKV_eq_some_of_mem (by rw [hk]; exact hnd) this

lemma mem_unique_of_nodup_keys {α : Type} {m : List (Task × α)} {p q : Task × α}
    (hnd : (keysOf m).Nodup) (hp : p ∈ m) (hq : q ∈ m) (h : p.1 = q.1) : p = q := by
  have h1 := lookupKV_eq_some_of_mem hnd hp
  have h2 := lookupKV_eq_some_of_mem hnd hq
  rw [h] at h1
  rw [h1] at h2
  rcases p with ⟨p1, p2⟩
  rcases q with ⟨q1, q2⟩
  cases h2
  cases h
  rfl

lemma mem_of_lookupKV {α : Type} {m : List (Task × α)} {t : Task} {v : α}
    (h : lookupKV m t = some v) : (t, v) ∈ m := by
  induction m with
  | nil => cases h
  | cons p rest ih =>
    by_cases hp : p.1 = t
    · rw [lookupKV, if_pos hp] at h
      cases h
      subst hp
      exact List.mem_cons.mpr (Or.inl rfl)
    · rw [lookupKV, if_neg hp] at h
      exact List.mem_cons_of_mem _ (ih h)

/-! ### Scheduler data (`Workflow.run`) -/

/-- `sum(1 for d in deps if d not in cache)` (workflow.py line 62). -/
def countUncached (cache : Cache) (ds : List Task) : Nat :=
  (ds.filter (fun d => !(memKV cache d))).length

/-- State of one `run` call.  `cache` and `rem` mirror the Python `cache`
and `rem_deps` dicts; `running` is the set of in-flight asyncio tasks (as
the keys of the Python `running` dict); `invoked` is the history of every
task ever launched with `asyncio.create_task(self._exec(...))`; `writes`
is the history of every cache-key write (seeds and completions), used to
observe the write-once discipline; `failed` records the exception that
aborted the run, if any, with the task it came from. -/
structure SchedState where
  cache : Cache
  rem : List (Task × Int)
  running : List Task
  invoked : List Task
  writes : List Task
  failed : Option (Task × ExecErr)
deriving DecidableEq, Repr

/-- Seeding loop (lines 50-58): each matched entry point is written into
the fresh cache in supply order. -/
def seedCacheOf (pairs : List (Task × Value)) : Cache :=
  pairs.foldl (fun c p => setKV c p.1 p.2) []

/-- Initial dispatch (lines 69-73): every graph task with no unsatisfied
dependencies and no cached result is launched, in map order. -/
def initLaunch (dm : DepsMap) (cache0 : Cache) : List Task :=
  (dm.filter (fun p => (countUncached cache0 p.2 == 0) && !(memKV cache0 p.1))).map
    (fun p => p.1)

/-- The run state after seeding, readiness accounting and initial
dispatch (steps 1-3 of `Workflow.run`), for already-matched entry-point
pairs. -/
def initState (dm : DepsMap) (pairs : List (Task × Value)) : SchedState :=
  { cache := seedCacheOf pairs
    rem := dm.map (fun p => (p.1, (countUncached (seedCacheOf pairs) p.2 : Int)))
    running := initLaunch dm (seedCacheOf pairs)
    invoked := initLaunch dm (seedCacheOf pairs)
    writes := keysOf pairs
    failed := none }

/-- Number of occurrences of a task in a list (dependency lists may name
the same producer several times, once per parameter). -/
def countT (t : Task) : List Task → Nat
  | [] => 0
  | a :: l => (if a = t then 1 else 0) + countT t l

/-- The reverse map `self._dependents` restricted to one producer `d`:
iterating `_deps` in insertion order, each task appears once per
occurrence of `d` in its dependency list (a task whose two parameters
name the same producer is appended twice, matching the two decrements it
will receive). -/
def dependentsOf (dm : DepsMap) (d : Task) : List Task :=
  match dm with
  | [] => []
  | p :: rest => List.replicate (countT d p.2) p.1 ++ dependentsOf rest d

/-- The dependent-decrement loop of the completion handler (lines 86-93):
each dependent's remaining count is decremented; a dependent reaching
exactly 0 is launched immediately.  Note the Python code does not check
the cache here. -/
def decLaunch : List Task → List (Task × Int) → List Task → List (Task × Int) × List Task
  | [], rem, acc => (rem, acc)
  | d :: rest, rem, acc =>
    if (lookupKV rem d).getD 0 - 1 = 0 then
      decLaunch rest (setKV rem d ((lookupKV rem d).getD 0 - 1)) (acc ++ [d])
    else
      decLaunch rest (setKV rem d ((lookupKV rem d).getD 0 - 1)) acc

/-- Processing one successfully completed task (lines 80-93): commit the
result, drop the task from the running set, decrement its dependents and
launch any that become ready. -/
def commitStep (dm : DepsMap) (s : SchedState) (fn : Task) (v : Value) : SchedState :=
  { cache := setKV s.cache fn v
    rem := (decLaunch (dependentsOf dm fn) s.rem []).1
    running := s.running.erase fn ++ (decLaunch (dependentsOf dm fn) s.rem []).2
    invoked := s.invoked ++ (decLaunch (dependentsOf dm fn) s.rem []).2
    writes := s.writes ++ [fn]
    failed := none }

/-- A task whose `_exec` raised: `task.result()` on line 82 re-raises, the
completion loop is abandoned and `run` fails with that exception.  The
raising task is removed from the bookkeeping; nothing else is touched. -/
def failStep (s : SchedState) (fn : Task) (e : ExecErr) : SchedState :=
  { s with running := s.running.erase fn, failed := some (fn, e) }

/-- One scheduler transition: some in-flight task finishes.  `asyncio.wait`
returns a batch of completed tasks which the loop processes one at a time,
so completing them one per transition (in any order) covers every
interleaving the source can exhibit.  `_exec` reads the shared cache
between its launch and its completion; since each key it reads is already
committed at launch time and (as proved below) never overwritten, reading
at completion time is equivalent.  No transition leaves a failed state:
the raised exception has already aborted the completion loop. -/
inductive Step (sig : Sig) (body : Body) (dm : DepsMap) : SchedState → SchedState → Prop where
  | complete {s : SchedState} {fn : Task} {v : Value} :
      s.failed = none → fn ∈ s.running →
      execTask sig body s.cache fn = .ok v →
      Step sig body dm s (commitStep dm s fn v)
  | fail {s : SchedState} {fn : Task} {e : ExecErr} :
      s.failed = none → fn ∈ s.running →
      execTask sig body s.cache fn = .error e →
      Step sig body dm s (failStep s fn e)

/-- All states one `run` call can pass through after seeding the given
entry-point pairs. -/
def Reachable (sig : Sig) (body : Body) (dm : DepsMap) (pairs : List (Task × Value))
    (s : SchedState) : Prop :=
  Relation.ReflTransGen (Step sig body dm) (initState dm pairs) s

/-- The spec's entry-point discipline: every supplied entry point targets
a distinct root task of the graph (one with no injected producers). -/
abbrev RootSeeds (dm : DepsMap) (pairs : List (Task × Value)) : Prop :=
  (keysOf pairs).Nodup ∧ ∀ p ∈ pairs, lookupKV dm p.1 = some []

/-- Direct dependency list of a task recorded in the graph. -/
def depsOfT (dm : DepsMap) (t : Task) : List Task :=
  (lookupKV dm t).getD []

/-- `b` is a direct or transitive producer of `t` in the built graph. -/
inductive ProducerPath (dm : DepsMap) : Task → Task → Prop where
  | direct {t d : Task} : d ∈ depsOfT dm t → ProducerPath dm t d
  | trans {t d e : Task} : d ∈ depsOfT dm t → ProducerPath dm d e → ProducerPath dm t e

/-- Step 5 of `run` (line 96): `tuple(cache[fn] for fn in self.end_goals)`;
a goal missing from the cache would raise `KeyError`, modelled by
`none`. -/
def collectGoals (cache : Cache) (goals : List Task) : Option (List Value) :=
  match goals with
  | [] => some []
  | g :: gs =>
    match lookupKV cache g with
    | none => none
    | some v =>
      match collectGoals cache gs with
      | none => none
      | some vs => some (v :: vs)

/-! ### Graph construction: termination and coverage (claim C4) -/

/-- The closure part of graph well-formedness: each recorded entry holds
exactly the task's marker list, and every recorded producer is itself a
key (guaranteed because `_build_deps` recurses into every dependency
before inserting). -/
abbrev ClosedDM (sig : Sig) (dm : DepsMap) : Prop :=
  ∀ p ∈ dm, p.2 = directDeps sig p.1 ∧ ∀ d ∈ p.2, memKV dm d = true

/-- Well-formedness of the dependency map built by `Workflow.__init__`. -/
abbrev GraphWF (sig : Sig) (dm : DepsMap) : Prop :=
  (keysOf dm).Nodup ∧ ClosedDM sig dm

lemma reach_closed {sig : Sig} {dm : DepsMap} (hcl : ClosedDM sig dm) :
    ∀ {a b : Task}, ReachG sig a b → memKV dm a = true → memKV dm b = true := by
  intro a b hr
  induction hr with
  | refl => exact fun h => h
  | @step fn d t hd _ ih =>
    intro ha
    rcases Option.isSome_iff_exists.mp ha with ⟨ds, hds⟩
    have hmem := mem_of_lookupKV hds
    rcases hcl _ hmem with ⟨hdd, hsub⟩
    exact ih (hsub d (by rw [hdd]; exact hd))

lemma rank_le_of_reach {sig : Sig} {rank : Task → Nat}
    (hrank : ∀ fn d, d ∈ directDeps sig fn → rank d < rank fn) :
    ∀ {a b : Task}, ReachG sig a b → rank b ≤ rank a := by
  intro a b hr
  induction hr with
  | refl => exact Nat.le_refl _
  | @step fn d t hd _ ih =>
    exact Nat.le_of_lt (Nat.lt_of_le_of_lt ih (hrank fn d hd))

lemma buildDepsList_mono (sig : Sig) : ∀ (fuel : Nat) (ds : List Task) (acc r : DepsMap),
    buildDepsList sig fuel ds acc = some r → buildDepsList sig (fuel + 1) ds acc = some r := by
  intro fuel
  induction fuel with
  | zero =>
    intro ds acc r h
    cases ds with
    | nil => exact h
    | cons a l => cases h
  | succ n ih =>
    intro ds acc r h
    cases ds with
    | nil => exact h
    | cons fn rest =>
      rw [buildDepsList] at h ⊢
      by_cases hm : memKV acc fn
      · rw [if_pos hm] at h ⊢
        exact ih rest acc r h
      · rw [if_neg hm] at h ⊢
        cases hsub : buildDepsList sig n (directDeps sig fn) acc with
        | none => rw [hsub] at h; cases h
        | some acc2 =>
          rw [hsub] at h
          rw [ih _ _ _ hsub]
          exact ih _ _ _ h

lemma buildDepsList_mono_le (sig : Sig) {fuel fuel' : Nat} (hle : fuel ≤ fuel') :
    ∀ {ds : List Task} {acc r : DepsMap},
    buildDepsList sig fuel ds acc = some r → buildDepsList sig fuel' ds acc = some r := by
  induction hle with
  | refl => exact fun h => h
  | step _ ih =>
    intro ds acc r h
    exact buildDepsList_mono sig _ _ _ _ (ih h)

lemma buildDepsList_total (sig : Sig) (rank : Task → Nat)
    (hrank : ∀ fn d, d ∈ directDeps sig fn → rank d < rank fn) :
    ∀ (B : Nat) (ds : List Task) (acc : DepsMap),
    (∀ d ∈ ds, rank d < B) →
    (keysOf acc).Nodup → ClosedDM sig acc →
    ∃ fuel acc2, buildDepsList sig fuel ds acc = some acc2 ∧
      (keysOf acc2).Nodup ∧ ClosedDM sig acc2 ∧
      (∀ t, memKV acc t = true → memKV acc2 t = true) ∧
      (∀ d ∈ ds, memKV acc2 d = true) ∧
      (∀ t, memKV acc2 t = true → memKV acc t = true ∨ ∃ d ∈ ds, ReachG sig d t) := by
  intro B
  induction B with
  | zero =>
    intro ds acc hlt hnd hcl
    cases ds with
    | nil =>
      exact ⟨0, acc, rfl, hnd, hcl, fun t h => h, fun d hd => absurd hd (List.not_mem_nil d),
        fun t h => Or.inl h⟩
    | cons d l => exact absurd (hlt d (List.mem_cons_self d l)) (Nat.not_lt_zero _)
  | succ n ihB =>
    intro ds
    induction ds with
    | nil =>
      intro acc hlt hnd hcl
      exact ⟨0, acc, rfl, hnd, hcl, fun t h => h, fun d hd => absurd hd (List.not_mem_nil d),
        fun t h => Or.inl h⟩
    | cons fn rest ihL =>
      intro acc hlt hnd hcl
      by_cases hm : memKV acc fn
      · obtain ⟨f2, acc2, h2, hnd2, hcl2, hmono2, hall2, hnew2⟩ :=
          ihL acc (fun d hd => hlt d (List.mem_cons_of_mem fn hd)) hnd hcl
        refine ⟨f2 + 1, acc2, ?_, hnd2, hcl2, hmono2, ?_, ?_⟩
        · rw [buildDepsList, if_pos hm]
          exact h2
        · intro d hd
          rcases List.mem_cons.mp hd with h | h
          · exact hmono2 d (h ▸ hm)
          · exact hall2 d h
        · intro t ht
          rcases hnew2 t ht with h | ⟨d, hd, hr⟩
          · exact Or.inl h
          · exact Or.inr ⟨d, List.mem_cons_of_mem fn hd, hr⟩
      · have hfn : rank fn < n + 1 := hlt fn (List.mem_cons_self fn rest)
        have hch : ∀ d ∈ directDeps sig fn, rank d < n := fun d hd =>
          Nat.lt_of_lt_of_le (hrank fn d hd) (Nat.lt_succ_iff.mp hfn)
        obtain ⟨f1, acc1, h1, hnd1, hcl1, hmono1, hall1, hnew1⟩ :=
          ihB (directDeps sig fn) acc hch hnd hcl
        have hfn1 : memKV acc1 fn = false := by
          by_contra hc
          have hc2 : memKV acc1 fn = true := by
            cases h : memKV acc1 fn
            · exact absurd h hc
            · rfl
          rcases hnew1 fn hc2 with h | ⟨d, hd, hr⟩
          · exact hm h
          · exact absurd (hrank fn d hd) (Nat.not_lt.mpr (rank_le_of_reach hrank hr))
        have hndA : (keysOf (acc1 ++ [(fn, directDeps sig fn)])).Nodup := by
          have : keysOf (acc1 ++ [(fn, directDeps sig fn)]) = keysOf acc1 ++ [fn] := by
            simp [keysOf]
          rw [this]
          refine List.Nodup.append hnd1 (List.nodup_singleton fn) ?_
          intro a ha hb
          rcases List.mem_singleton.mp hb with rfl
          exact absurd ((memKV_iff_keys acc1 a).mpr ha) (by rw [hfn1]; simp)
        have hclA : ClosedDM sig (acc1 ++ [(fn, directDeps sig fn)]) := by
          intro p hp
          rcases List.mem_append.mp hp with h | h
          · rcases hcl1 p h with ⟨he, hs⟩
            exact ⟨he, fun d hd => by
              rw [memKV_append]
              rw [hs d hd]
              rfl⟩
          · rcases List.mem_singleton.mp h with rfl
            refine ⟨rfl, fun d hd => ?_⟩
            rw [memKV_append]
            rw [hall1 d hd]
            rfl
        obtain ⟨f2, acc2, h2, hnd2, hcl2, hmono2, hall2, hnew2⟩ :=
          ihL (acc1 ++ [(fn, directDeps sig fn)])
            (fun d hd => hlt d (List.mem_cons_of_mem fn hd)) hndA hclA
        have hmonoA : ∀ t, memKV acc1 t = true → memKV (acc1 ++ [(fn, directDeps sig fn)]) t = true := by
          intro t ht
          rw [memKV_append, ht]
          rfl
        have hfnA : memKV (acc1 ++ [(fn, directDeps sig fn)]) fn = true := by
          rw [memKV_append, hfn1]
          simp [memKV, lookupKV]
        refine ⟨max f1 f2 + 1, acc2, ?_, hnd2, hcl2, ?_, ?_, ?_⟩
        · rw [buildDepsList, if_neg hm]
          rw [buildDepsList_mono_le sig (Nat.le_max_left f1 f2) h1]
          exact buildDepsList_mono_le sig (Nat.le_max_right f1 f2) h2
        · intro t ht
          exact hmono2 t (hmonoA t (hmono1 t ht))
        · intro d hd
          rcases List.mem_cons.mp hd with h | h
          · exact h ▸ hmono2 fn hfnA
          · exact hall2 d h
        · intro t ht
          rcases hnew2 t ht with h | ⟨d, hd, hr⟩
          · rw [memKV_append] at h
            rcases Bool.or_eq_true_iff.mp h with h | h
            · rcases hnew1 t h with h | ⟨d, hd, hr⟩
              · exact Or.inl h
              · exact Or.inr ⟨fn, List.mem_cons_self fn rest, ReachG.step hd hr⟩
            · have : t = fn := by
                by_cases he : fn = t
                · exact he.symm
                · simp [memKV, lookupKV, he] at h
              exact Or.inr ⟨fn, List.mem_cons_self fn rest, this ▸ ReachG.refl t⟩
          · exact Or.inr ⟨d, List.mem_cons_of_mem fn hd, hr⟩

/-- Claim C4: for any acyclic goal set (witnessed by a rank function that
strictly decreases along marker edges), graph construction terminates
(some fuel suffices), the forward map's keys are exactly the tasks
transitively reachable from the goals via markers, each appearing exactly
once, and at run start `rem_deps` maps every graph task to the number of
its direct producers absent from the just-seeded cache. -/
theorem acyclic_build_terminates_and_counts (sig : Sig) (rank : Task → Nat)
    (hrank : ∀ fn d, d ∈ directDeps sig fn → rank d < rank fn) (goals : List Task) :
    ∃ fuel dm, buildAll sig fuel goals = some dm ∧
      (keysOf dm).Nodup ∧
      (∀ t, memKV dm t = true ↔ ∃ g ∈ goals, ReachG sig g t) ∧
      ∀ pairs : List (Task × Value), ∀ p ∈ dm,
        lookupKV (initState dm pairs).rem p.1 =
          some ((countUncached (initState dm pairs).cache p.2 : Int)) := by
  obtain ⟨fuel, dm, hb, hnd, hcl, _, hall, hnew⟩ :=
    buildDepsList_total sig rank hrank ((goals.map rank).sum + 1) goals []
      (fun d hd => Nat.lt_succ_of_le
        (List.single_le_sum (fun x _ => Nat.zero_le x) _ (List.mem_map_of_mem rank hd)))
      List.nodup_nil (fun p hp => absurd hp (List.not_mem_nil p))
  refine ⟨fuel, dm, hb, hnd, ?_, ?_⟩
  · intro t
    constructor
    · intro ht
      rcases hnew t ht with h | h
      · simp [memKV, lookupKV] at h
      · exact h
    · rintro ⟨g, hg, hr⟩
      exact reach_closed hcl hr (hall g hg)
  · intro pairs p hp
    exact lookupKV_map_self _ hnd hp

/-- The diamond workflow of the spec's test scenarios: task 0 has no
dependencies, tasks 1 and 2 each depend on 0, task 3 depends on 1 and 2. -/
def sigD : Sig := fun t =>
  match t with
  | 1 => [Param.mk "a" (.val (DependsPy 0 true))]
  | 2 => [Param.mk "a" (.val (DependsPy 0 true))]
  | 3 => [Param.mk "b" (.val (DependsPy 1 true)), Param.mk "d" (.val (DependsPy 2 true))]
  | _ => []

/-- Witness for C4: the diamond goal set builds, with the numeric order
as rank function. -/
theorem acyclic_build_witness :
    ∃ fuel dm, buildAll sigD fuel [3] = some dm ∧
      (keysOf dm).Nodup ∧
      (∀ t, memKV dm t = true ↔ ∃ g ∈ [3], ReachG sigD g t) ∧
      ∀ pairs : List (Task × Value), ∀ p ∈ dm,
        lookupKV (initState dm pairs).rem p.1 =
          some ((countUncached (initState dm pairs).cache p.2 : Int)) := by
  refine acyclic_build_terminates_and_counts sigD (fun t => t) ?_ [3]
  intro fn d hd
  rcases fn with _ | _ | _ | _ | n
  · have h0 : directDeps sigD 0 = [] := rfl
    rw [h0] at hd
    cases hd
  · have h1 : directDeps sigD 1 = [0] := rfl
    rw [h1] at hd
    rcases List.mem_singleton.mp hd with rfl
    decide
  · have h2 : directDeps sigD 2 = [0] := rfl
    rw [h2] at hd
    rcases List.mem_singleton.mp hd with rfl
    decide
  · have h3 : directDeps sigD 3 = [1, 2] := rfl
    rw [h3] at hd
    have : d = 1 ∨ d = 2 := by simpa using hd
    rcases this with rfl | rfl
    · decide
    · decide
  · have h4 : directDeps sigD (n + 4) = [] := rfl
    rw [h4] at hd
    cases hd

/-! ### Entry-point seeding (`Workflow.run` step 1) -/

/-- An element of `initial_inputs`: either a coroutine object (a pending
computation, carrying its function's `cr_code.co_name` and the value it
will resolve to) or a plain concrete value. -/
inductive SeedInput where
  | pending (fnName : String) (value : Value)
  | concrete (value : Value)
deriving DecidableEq, Repr

/-- Failure of the seeding phase: `asyncio.gather` (line 51) raises
`TypeError` when handed a non-awaitable, and the subsequent
`coro.cr_code` attribute access would equally fail on a plain value. -/
inductive SeedErr where
  | notAwaitable
deriving DecidableEq, Repr

/-- `await asyncio.gather(*initial_inputs)`: all pending computations
resolve, in supply order; any non-awaitable aborts the run. -/
def resolveSeeds : List SeedInput → Except SeedErr (List (String × Value))
  | [] => .ok []
  | .pending nm v :: rest =>
    match resolveSeeds rest with
    | .ok rs => .ok ((nm, v) :: rs)
    | .error e => .error e
  | .concrete _ :: _ => .error .notAwaitable

/-- Lines 54-58: the first function in `self._deps` (insertion order)
whose `__name__` equals the coroutine's code name, if any. -/
def findByName (nameOf : Task → String) (dm : DepsMap) (nm : String) : Option Task :=
  match dm with
  | [] => none
  | p :: rest => if nameOf p.1 = nm then some p.1 else findByName nameOf rest nm

/-- The seeding loop over the resolved inputs: each resolved value is
associated with the first graph task matching its name; unmatched inputs
are silently dropped. -/
def matchResolved (nameOf : Task → String) (dm : DepsMap) :
    List (String × Value) → List (Task × Value)
  | [] => []
  | (nm, v) :: rest =>
    match findByName nameOf dm nm with
    | some t => (t, v) :: matchResolved nameOf dm rest
    | none => matchResolved nameOf dm rest

/-- Steps 1-3 of `Workflow.run`: resolve the supplied inputs, match them
to graph tasks by name, seed the cache, account readiness and dispatch the
initially ready tasks. -/
def runInit (nameOf : Task → String) (dm : DepsMap) (inputs : List SeedInput) :
    Except SeedErr SchedState :=
  match resolveSeeds inputs with
  | .error e => .error e
  | .ok rs => .ok (initState dm (matchResolved nameOf dm rs))

lemma resolve_mem {inputs : List SeedInput} {rs : List (String × Value)}
    (hok : resolveSeeds inputs = .ok rs) {nm : String} {v : Value}
    (hmem : SeedInput.pending nm v ∈ inputs) : (nm, v) ∈ rs := by
  induction inputs generalizing rs with
  | nil => cases hmem
  | cons i rest ih =>
    cases i with
    | concrete w => cases hok
    | pending nm2 v2 =>
      rw [resolveSeeds] at hok
      cases hrest : resolveSeeds rest with
      | error e => rw [hrest] at hok; cases hok
      | ok rs2 =>
        rw [hrest] at hok
        cases hok
        rcases List.mem_cons.mp hmem with h | h
        · cases h
          exact List.mem_cons_self _ _
        · exact List.mem_cons_of_mem _ (ih hrest h)

lemma match_mem {nameOf : Task → String} {dm : DepsMap} {rs : List (String × Value)}
    {nm : String} {v : Value} {t : Task} (hmem : (nm, v) ∈ rs)
    (hfind : findByName nameOf dm nm = some t) :
    (t, v) ∈ matchResolved nameOf dm rs := by
  induction rs with
  | nil => cases hmem
  | cons p rest ih =>
    rcases List.mem_cons.mp hmem with h | h
    · cases h
      simp only [matchResolved, hfind]
      exact List.mem_cons_self _ _
    · rcases p with ⟨nm2, v2⟩
      have hr := ih h
      simp only [matchResolved]
      cases hf : findByName nameOf dm nm2 with
      | none => simpa [hf] using hr
      | some t2 =>
        simp only [hf]
        exact List.mem_cons_of_mem _ hr

lemma foldl_setKV_notmem {pairs : List (Task × Value)} {t : Task}
    (h : t ∉ keysOf pairs) (c : Cache) :
    lookupKV (pairs.foldl (fun c p => setKV c p.1 p.2) c) t = lookupKV c t := by
  induction pairs generalizing c with
  | nil => rfl
  | cons p rest ih =>
    have hne : p.1 ≠ t := by
      intro he
      subst he
      exact h (List.mem_cons_self _ _)
    rw [List.foldl_cons, ih (fun hm => h (List.mem_cons_of_mem _ hm)), lookupKV_setKV,
      if_neg hne]

lemma lookup_seedCacheOf {pairs : List (Task × Value)}
    (hnd : (keysOf pairs).Nodup) {t : Task} {v : Value} (hmem : (t, v) ∈ pairs) :
    lookupKV (seedCacheOf pairs) t = some v := by
  have main : ∀ (l : List (Task × Value)) (c : Cache), (keysOf l).Nodup → (t, v) ∈ l →
      lookupKV (l.foldl (fun c p => setKV c p.1 p.2) c) t = some v := by
    intro l
    induction l with
    | nil =>
      intro c _ hm
      cases hm
    | cons p rest ih =>
      intro c hnd2 hm
      have hnd3 : p.1 ∉ keysOf rest ∧ (keysOf rest).Nodup := List.nodup_cons.mp hnd2
      rw [List.foldl_cons]
      rcases List.mem_cons.mp hm with h | h
      · cases h
        rw [foldl_setKV_notmem hnd3.1 _, lookupKV_setKV, if_pos rfl]
      · exact ih (setKV c p.1 p.2) hnd3.2 h
  exact main pairs [] hnd hmem

/-- Claim C9 (code bug): seeding with a concrete value is not equivalent
to seeding with a pending computation.  On the single-root workflow, the
pending form succeeds and the run returns the resolved value, while the
concrete form makes `run` raise before seeding anything (`asyncio.gather`
and `coro.cr_code` both reject a plain value), even though the spec and
the repository's usage example present the two forms as
interchangeable. -/
theorem concrete_entry_point_rejected_pending_accepted :
    runInit (fun _ => "A") [(0, [])] [SeedInput.concrete (.nat 5)] = .error .notAwaitable ∧
    ∃ s0, runInit (fun _ => "A") [(0, [])] [SeedInput.pending "A" (.nat 5)] = .ok s0 ∧
      s0.running = [] ∧ s0.failed = none ∧
      collectGoals s0.cache [0] = some [.nat 5] := by
  refine ⟨rfl, initState [(0, [])] [(0, .nat 5)], ?_, ?_, ?_, ?_⟩ <;> rfl

/-- Claim C5: every supplied pending entry point whose underlying function
matches a graph task (uniquely, as the name-matching loop requires) has
its resolved value in the cache under that target task in the state where
readiness accounting takes place, and the remaining-dependency counts are
computed from that fully seeded cache. -/
theorem entry_points_seeded_before_readiness_accounting
    (nameOf : Task → String) (dm : DepsMap) (inputs : List SeedInput)
    (rs : List (String × Value)) (nm : String) (v : Value) (t : Task)
    (hnd : (keysOf dm).Nodup)
    (hok : resolveSeeds inputs = .ok rs)
    (hmem : SeedInput.pending nm v ∈ inputs)
    (hfind : findByName nameOf dm nm = some t)
    (hnds : (keysOf (matchResolved nameOf dm rs)).Nodup) :
    ∃ s0, runInit nameOf dm inputs = .ok s0 ∧
      lookupKV s0.cache t = some v ∧
      ∀ p ∈ dm, lookupKV s0.rem p.1 =
        some ((countUncached s0.cache p.2 : Int)) := by
  refine ⟨initState dm (matchResolved nameOf dm rs), ?_, ?_, ?_⟩
  · rw [runInit, hok]
  · exact lookup_seedCacheOf hnds (match_mem (resolve_mem hok hmem) hfind)
  · intro p hp
    exact lookupKV_map_self _ hnd hp

/-- Witness for C5 at the single-root workflow seeded by one pending
computation. -/
theorem entry_points_seeded_witness :
    ∃ s0, runInit (fun _ => "A") [(0, [])] [SeedInput.pending "A" (.nat 5)] = .ok s0 ∧
      lookupKV s0.cache 0 = some (.nat 5) ∧
      ∀ p ∈ ([(0, [])] : DepsMap), lookupKV s0.rem p.1 =
        some ((countUncached s0.cache p.2 : Int)) :=
  entry_points_seeded_before_readiness_accounting (fun _ => "A") [(0, [])]
    [SeedInput.pending "A" (.nat 5)] [("A", .nat 5)] "A" (.nat 5) 0
    (by decide) rfl (List.mem_singleton.mpr rfl) rfl (by decide)

/-- Claim C8: a run that completes without error returns one result per
declared goal, aligned with goal-declaration order: the i-th returned
value is the cached result of the i-th goal task. -/
theorem results_follow_goal_declaration_order
    (sig : Sig) (body : Body) (dm : DepsMap) (pairs : List (Task × Value))
    (goals : List Task) (s : SchedState) (out : List Value)
    (hreach : Reachable sig body dm pairs s)
    (hdone : s.running = []) (hfail : s.failed = none)
    (hcol : collectGoals s.cache goals = some out) :
    out.length = goals.length ∧
    ∀ (i : Nat) (h1 : i < goals.length) (h2 : i < out.length),
      lookupKV s.cache (goals.get ⟨i, h1⟩) = some (out.get ⟨i, h2⟩) := by
  clear hreach hdone hfail
  induction goals generalizing out with
  | nil =>
    cases hcol
    exact ⟨rfl, fun i h1 => absurd h1 (Nat.not_lt_zero i)⟩
  | cons g gs ih =>
    rw [collectGoals] at hcol
    cases hv : lookupKV s.cache g with
    | none =>
      rw [hv] at hcol
      cases hcol
    | some v =>
      rw [hv] at hcol
      cases hrest : collectGoals s.cache gs with
      | none =>
        rw [hrest] at hcol
        cases hcol
      | some vs =>
        rw [hrest] at hcol
        cases hcol
        obtain ⟨hlen, hidx⟩ := ih vs hrest
        refine ⟨by simp [hlen], ?_⟩
        intro i h1 h2
        cases i with
        | zero => exact hv
        | succ j =>
          exact hidx j (Nat.lt_of_succ_lt_succ h1) (Nat.lt_of_succ_lt_succ h2)

/-- Witness for C8: the seeded single-goal run is complete at its initial
state and returns the goal's cached result. -/
theorem results_follow_goal_order_witness :
    ([Value.nat 5] : List Value).length = ([0] : List Task).length ∧
    ∀ (i : Nat) (h1 : i < ([0] : List Task).length) (h2 : i < ([Value.nat 5] : List Value).length),
      lookupKV (initState [(0, [])] [(0, .nat 5)]).cache (([0] : List Task).get ⟨i, h1⟩) =
        some (([Value.nat 5] : List Value).get ⟨i, h2⟩) :=
  results_follow_goal_declaration_order (fun _ => []) (fun _ _ => .ok .unit)
    [(0, [])] [(0, .nat 5)] [0] (initState [(0, [])] [(0, .nat 5)]) [Value.nat 5]
    Relation.ReflTransGen.refl rfl rfl rfl

/-! ### Counting lemmas for the completion handler -/

lemma countT_append (t : Task) (l1 l2 : List Task) :
    countT t (l1 ++ l2) = countT t l1 + countT t l2 := by
  induction l1 with
  | nil => simp [countT]
  | cons a l ih =>
    have h1 : countT t (a :: l ++ l2) = (if a = t then 1 else 0) + countT t (l ++ l2) := rfl
    have h2 : countT t (a :: l) = (if a = t then 1 else 0) + countT t l := rfl
    rw [h1, h2, ih]
    omega

lemma countT_replicate (t x : Task) (n : Nat) :
    countT t (List.replicate n x) = if x = t then n else 0 := by
  induction n with
  | zero => simp [countT]
  | succ m ih =>
    rw [List.replicate_succ, countT, ih]
    by_cases h : x = t <;> simp [h] <;> omega

lemma countT_eq_zero_of_not_mem {t : Task} {l : List Task} (h : t ∉ l) :
    countT t l = 0 := by
  induction l with
  | nil => rfl
  | cons a rest ih =>
    have ha : a ≠ t := fun he => h (he ▸ List.mem_cons_self a rest)
    rw [countT, if_neg ha, ih (fun hm => h (List.mem_cons_of_mem a hm))]

lemma memKV_cons {α : Type} (p : Task × α) (rest : List (Task × α)) (t : Task) :
    memKV (p :: rest) t = (decide (p.1 = t) || memKV rest t) := by
  by_cases h : p.1 = t <;> simp [memKV, lookupKV, h]

lemma mem_dependentsOf {dm : DepsMap} {d t : Task} (h : t ∈ dependentsOf dm d) :
    memKV dm t = true := by
  induction dm with
  | nil => cases h
  | cons p rest ih =>
    rw [dependentsOf] at h
    rw [memKV_cons]
    rcases List.mem_append.mp h with h | h
    · have he : t = p.1 := List.eq_of_mem_replicate h
      rw [he]
      simp
    · rw [ih h]
      simp

lemma countT_dependentsOf_zero {dm : DepsMap} {t : Task} (h : memKV dm t = false)
    (fn : Task) : countT t (dependentsOf dm fn) = 0 := by
  apply countT_eq_zero_of_not_mem
  intro hm
  rw [mem_dependentsOf hm] at h
  cases h

lemma countT_dependentsOf {dm : DepsMap} (hnd : (keysOf dm).Nodup)
    {p : Task × List Task} (hp : p ∈ dm) (fn : Task) :
    countT p.1 (dependentsOf dm fn) = countT fn p.2 := by
  induction dm with
  | nil => cases hp
  | cons q rest ih =>
    have hnd2 : q.1 ∉ keysOf rest ∧ (keysOf rest).Nodup := List.nodup_cons.mp hnd
    rw [dependentsOf, countT_append, countT_replicate]
    rcases List.mem_cons.mp hp with h | h
    · cases h
      rw [if_pos rfl]
      have hz : countT p.1 (dependentsOf rest fn) = 0 := by
        apply countT_dependentsOf_zero _ fn
        cases hmk : memKV rest p.1
        · rfl
        · exact absurd ((memKV_iff_keys rest p.1).mp hmk) hnd2.1
      omega
    · have hne : q.1 ≠ p.1 := by
        intro he
        exact hnd2.1 (he ▸ List.mem_map_of_mem (fun r => r.1) h)
      rw [if_neg hne, ih hnd2.2 h]
      omega

lemma countUncached_cons (cache : Cache) (a : Task) (l : List Task) :
    countUncached cache (a :: l) =
      (if memKV cache a = true then 0 else 1) + countUncached cache l := by
  cases h : memKV cache a with
  | false =>
    simp only [countUncached, List.filter, h]
    simp
    omega
  | true =>
    simp only [countUncached, List.filter, h]
    simp

lemma countUncached_setKV {cache : Cache} {fn : Task} {v : Value}
    (h : memKV cache fn = false) (ds : List Task) :
    countUncached (setKV cache fn v) ds + countT fn ds = countUncached cache ds := by
  induction ds with
  | nil => rfl
  | cons a l ih =>
    rw [countUncached_cons, countUncached_cons, countT]
    by_cases ha : a = fn
    · subst ha
      have h1 : (if memKV (setKV cache a v) a = true then (0 : Nat) else 1) = 0 := by
        rw [memKV_setKV]
        simp
      have h2 : (if memKV cache a = true then (0 : Nat) else 1) = 1 := by
        rw [h]
        rfl
      have h3 : (if a = a then (1 : Nat) else 0) = 1 := if_pos rfl
      rw [h1, h2, h3]
      omega
    · have h4 : memKV (setKV cache fn v) a = memKV cache a := by
        rw [memKV_setKV]
        have hd : decide (fn = a) = false := decide_eq_false (fun he => ha he.symm)
        rw [hd]
        simp
      have h5 : (if a = fn then (1 : Nat) else 0) = 0 := if_neg ha
      rw [h4, h5]
      omega

lemma countUncached_eq_zero {cache : Cache} {ds : List Task} :
    countUncached cache ds = 0 ↔ ∀ d ∈ ds, memKV cache d = true := by
  induction ds with
  | nil => simp [countUncached]
  | cons a l ih =>
    rw [countUncached_cons]
    constructor
    · intro hz d hd
      have hca : memKV cache a = true := by
        by_contra hc
        rw [if_neg hc] at hz
        omega
      rcases List.mem_cons.mp hd with rfl | hd
      · exact hca
      · refine ih.mp ?_ d hd
        rw [if_pos hca] at hz
        omega
    · intro hall
      have hca : memKV cache a = true := hall a (List.mem_cons_self a l)
      rw [if_pos hca, ih.mpr (fun d hd => hall d (List.mem_cons_of_mem a hd))]

lemma memKV_setKV_of_mem {cache : Cache} {t : Task} (fn : Task) (v : Value)
    (h : memKV cache t = true) : memKV (setKV cache fn v) t = true := by
  rw [memKV_setKV, h]
  simp

/-- Behaviour of the dependent-decrement loop, relative to the cache
`cache2` that already contains the just-committed result.  `inv0` is the
set of tasks invoked before this completion was processed; `acc`
accumulates the tasks launched so far during this loop.  Tasks never
invoked keep their count equal to the number of direct producers missing
from the cache (the remaining occurrences in the unprocessed suffix `L`
accounting for the decrements still to come); invoked tasks keep a
non-positive count, which is why the loop can never relaunch them: a
decrement moves a non-positive count strictly below zero, and the loop
launches only on exact zero. -/
lemma decLaunch_spec (dm : DepsMap) (cache2 : Cache) (inv0 : List Task)
    (hnd : (keysOf dm).Nodup) :
    ∀ (L : List Task) (rem : List (Task × Int)) (acc : List Task),
    (∀ t ∈ L, memKV dm t = true) →
    (∀ p ∈ dm, p.1 ∉ inv0 → p.1 ∉ acc →
      lookupKV rem p.1 = some ((countUncached cache2 p.2 : Int) + (countT p.1 L : Int))) →
    (∀ p ∈ dm, p.1 ∈ inv0 ∨ p.1 ∈ acc → ∃ z : Int, z ≤ 0 ∧ lookupKV rem p.1 = some z) →
    acc.Nodup →
    (∀ t ∈ acc, t ∉ inv0) →
    (∀ t ∈ acc, memKV dm t = true ∧ countUncached cache2 (depsOfT dm t) = 0) →
    (∀ p ∈ dm, p.1 ∉ inv0 → p.1 ∉ (decLaunch L rem acc).2 →
      lookupKV (decLaunch L rem acc).1 p.1 = some ((countUncached cache2 p.2 : Int))) ∧
    (∀ p ∈ dm, p.1 ∈ inv0 ∨ p.1 ∈ (decLaunch L rem acc).2 →
      ∃ z : Int, z ≤ 0 ∧ lookupKV (decLaunch L rem acc).1 p.1 = some z) ∧
    (decLaunch L rem acc).2.Nodup ∧
    (∀ t ∈ (decLaunch L rem acc).2, t ∉ inv0) ∧
    (∀ t ∈ (decLaunch L rem acc).2,
      memKV dm t = true ∧ countUncached cache2 (depsOfT dm t) = 0) ∧
    (∀ t ∈ acc, t ∈ (decLaunch L rem acc).2) ∧
    (∀ t ∈ (decLaunch L rem acc).2, t ∈ acc ∨ t ∈ L) := by
  intro L
  induction L with
  | nil =>
    intro rem acc hL h1 h2 hndA hni hprop
    simp only [decLaunch]
    refine ⟨?_, ?_, hndA, hni, hprop, fun t ht => ht, fun t ht => Or.inl ht⟩
    · intro p hp hpi hpa
      have hv := h1 p hp hpi hpa
      rw [hv]
      simp [countT]
    · exact fun p hp hmem => h2 p hp hmem
  | cons d rest ih =>
    intro rem acc hL h1 h2 hndA hni hprop
    have hdkey : memKV dm d = true := hL d (List.mem_cons_self d rest)
    obtain ⟨dsd, hdsd⟩ := Option.isSome_iff_exists.mp hdkey
    have hdmem : (d, dsd) ∈ dm := mem_of_lookupKV hdsd
    have hLrest : ∀ t ∈ rest, memKV dm t = true :=
      fun t ht => hL t (List.mem_cons_of_mem d ht)
    by_cases hdin : d ∈ inv0 ∨ d ∈ acc
    · obtain ⟨z, hz, hlz⟩ := h2 (d, dsd) hdmem hdin
      have hne : ¬((lookupKV rem d).getD 0 - 1 = 0) := by
        rw [hlz]
        simp only [Option.getD_some]
        omega
      rw [decLaunch, if_neg hne]
      have hstep := ih (setKV rem d ((lookupKV rem d).getD 0 - 1)) acc hLrest ?_ ?_ hndA hni hprop
      · refine ⟨hstep.1, hstep.2.1, hstep.2.2.1, hstep.2.2.2.1, hstep.2.2.2.2.1,
          hstep.2.2.2.2.2.1, ?_⟩
        intro t ht
        rcases hstep.2.2.2.2.2.2 t ht with h | h
        · exact Or.inl h
        · exact Or.inr (List.mem_cons_of_mem d h)
      · intro p hp hpi hpa
        have hpd : p.1 ≠ d := by
          intro he
          rcases hdin with h | h
          · exact hpi (he ▸ h)
          · exact hpa (he ▸ h)
        rw [lookupKV_setKV, if_neg (fun he => hpd he.symm)]
        have hv := h1 p hp hpi hpa
        rw [hv]
        have hc : countT p.1 (d :: rest) = countT p.1 rest := by
          rw [countT, if_neg (fun he => hpd he.symm)]
          omega
        rw [hc]
      · intro p hp hpin
        by_cases hpd : p.1 = d
        · refine ⟨z - 1, by omega, ?_⟩
          rw [lookupKV_setKV, if_pos hpd.symm, hlz]
          simp only [Option.getD_some]
        · obtain ⟨z2, hz2, hlz2⟩ := h2 p hp hpin
          exact ⟨z2, hz2, by rw [lookupKV_setKV, if_neg (fun he => hpd he.symm)]; exact hlz2⟩
    · push_neg at hdin
      have hl1 := h1 (d, dsd) hdmem hdin.1 hdin.2
      have hct : (countT d (d :: rest) : Int) = 1 + (countT d rest : Int) := by
        rw [countT, if_pos rfl]
        push_cast
        ring
      have hcond : (lookupKV rem d).getD 0 - 1 =
          (countUncached cache2 dsd : Int) + (countT d rest : Int) := by
        rw [hl1]
        simp only [Option.getD_some]
        rw [hct]
        ring
      by_cases hnv : (countUncached cache2 dsd : Int) + (countT d rest : Int) = 0
      · -- the count reaches exactly zero: d is launched
        have hc0 : countUncached cache2 dsd = 0 := by omega
        rw [decLaunch, hcond, if_pos hnv, hnv]
        have hstep := ih (setKV rem d 0) (acc ++ [d]) hLrest ?_ ?_ ?_ ?_ ?_
        · refine ⟨hstep.1, hstep.2.1, hstep.2.2.1, hstep.2.2.2.1, hstep.2.2.2.2.1, ?_, ?_⟩
          · intro t ht
            exact hstep.2.2.2.2.2.1 t (List.mem_append.mpr (Or.inl ht))
          · intro t ht
            rcases hstep.2.2.2.2.2.2 t ht with h | h
            · rcases List.mem_append.mp h with h | h
              · exact Or.inl h
              · rcases List.mem_singleton.mp h with rfl
                exact Or.inr (List.mem_cons_self _ _)
            · exact Or.inr (List.mem_cons_of_mem d h)
        · intro p hp hpi hpa
          have hpd : p.1 ≠ d := by
            intro he
            exact hpa (List.mem_append.mpr (Or.inr (he ▸ List.mem_singleton.mpr rfl)))
          have hpa2 : p.1 ∉ acc := fun hm => hpa (List.mem_append.mpr (Or.inl hm))
          rw [lookupKV_setKV, if_neg (fun he => hpd he.symm)]
          have hv := h1 p hp hpi hpa2
          rw [hv]
          have hc : countT p.1 (d :: rest) = countT p.1 rest := by
            rw [countT, if_neg (fun he => hpd he.symm)]
            omega
          rw [hc]
        · intro p hp hpin
          by_cases hpd : p.1 = d
          · refine ⟨0, le_refl 0, ?_⟩
            rw [lookupKV_setKV, if_pos hpd.symm]
          · have hpin2 : p.1 ∈ inv0 ∨ p.1 ∈ acc := by
              rcases hpin with h | h
              · exact Or.inl h
              · rcases List.mem_append.mp h with h | h
                · exact Or.inr h
                · exact absurd (List.mem_singleton.mp h) hpd
            obtain ⟨z2, hz2, hlz2⟩ := h2 p hp hpin2
            exact ⟨z2, hz2, by rw [lookupKV_setKV, if_neg (fun he => hpd he.symm)]; exact hlz2⟩
        · refine List.Nodup.append hndA (List.nodup_singleton d) ?_
          intro a ha hb
          rcases List.mem_singleton.mp hb with rfl
          exact hdin.2 ha
        · intro t ht
          rcases List.mem_append.mp ht with h | h
          · exact hni t h
          · rcases List.mem_singleton.mp h with rfl
            exact hdin.1
        · intro t ht
          rcases List.mem_append.mp ht with h | h
          · exact hprop t h
          · rcases List.mem_singleton.mp h with rfl
            refine ⟨hdkey, ?_⟩
            rw [depsOfT, hdsd]
            exact hc0
      · -- the count stays nonzero: no launch
        rw [decLaunch, hcond, if_neg hnv]
        have hstep := ih (setKV rem d ((countUncached cache2 dsd : Int) + (countT d rest : Int)))
          acc hLrest ?_ ?_ hndA hni hprop
        · refine ⟨hstep.1, hstep.2.1, hstep.2.2.1, hstep.2.2.2.1, hstep.2.2.2.2.1,
            hstep.2.2.2.2.2.1, ?_⟩
          intro t ht
          rcases hstep.2.2.2.2.2.2 t ht with h | h
          · exact Or.inl h
          · exact Or.inr (List.mem_cons_of_mem d h)
        · intro p hp hpi hpa
          by_cases hpd : p.1 = d
          · have hpe : p = (d, dsd) := mem_unique_of_nodup_keys hnd hp hdmem hpd
            rw [lookupKV_setKV, if_pos hpd.symm]
            rw [hpe]
          · rw [lookupKV_setKV, if_neg (fun he => hpd he.symm)]
            have hv := h1 p hp hpi hpa
            rw [hv]
            have hc : countT p.1 (d :: rest) = countT p.1 rest := by
              rw [countT, if_neg (fun he => hpd he.symm)]
              omega
            rw [hc]
        · intro p hp hpin
          have hpd : p.1 ≠ d := by
            intro he
            rcases hpin with h | h
            · exact hdin.1 (he ▸ h)
            · exact hdin.2 (he ▸ h)
          obtain ⟨z2, hz2, hlz2⟩ := h2 p hp hpin
          exact ⟨z2, hz2, by rw [lookupKV_setKV, if_neg (fun he => hpd he.symm)]; exact hlz2⟩

/-! ### The run-safety invariant -/

lemma mem_of_countT_pos {t : Task} {l : List Task} (h : 0 < countT t l) : t ∈ l := by
  induction l with
  | nil => simp [countT] at h
  | cons a rest ih =>
    rw [countT] at h
    by_cases ha : a = t
    · exact ha ▸ List.mem_cons_self a rest
    · rw [if_neg ha] at h
      exact List.mem_cons_of_mem a (ih (by omega))

lemma producer_mem_of_dependent {dm : DepsMap} (hnd : (keysOf dm).Nodup) {t fn : Task}
    (h : t ∈ dependentsOf dm fn) : fn ∈ depsOfT dm t := by
  induction dm with
  | nil => cases h
  | cons q rest ih =>
    have hnd2 := List.nodup_cons.mp hnd
    rw [dependentsOf] at h
    rcases List.mem_append.mp h with h | h
    · have he : t = q.1 := List.eq_of_mem_replicate h
      subst he
      have hpos : 0 < countT fn q.2 := by
        rcases Nat.eq_zero_or_pos (countT fn q.2) with hz | hp
        · rw [hz] at h
          cases h
        · exact hp
      have hfq : fn ∈ q.2 := mem_of_countT_pos hpos
      rw [depsOfT, lookupKV, if_pos rfl]
      exact hfq
    · have hmem : memKV rest t = true := mem_dependentsOf h
      have hne : q.1 ≠ t := by
        intro he
        apply hnd2.1
        show q.1 ∈ keysOf rest
        rw [he]
        exact (memKV_iff_keys rest t).mp hmem
      rw [depsOfT, lookupKV, if_neg hne]
      exact ih hnd2.2 h

lemma memKV_seedCacheOf {pairs : List (Task × Value)} {t : Task} :
    memKV (seedCacheOf pairs) t = true ↔ t ∈ keysOf pairs := by
  have main : ∀ (l : List (Task × Value)) (c : Cache),
      memKV (l.foldl (fun c p => setKV c p.1 p.2) c) t = true ↔
        (memKV c t = true ∨ t ∈ keysOf l) := by
    intro l
    induction l with
    | nil =>
      intro c
      simp [keysOf]
    | cons p rest ih =>
      intro c
      rw [List.foldl_cons, ih]
      constructor
      · rintro (h | h)
        · rw [memKV_setKV] at h
          rcases Bool.or_eq_true_iff.mp h with h | h
          · exact Or.inr (of_decide_eq_true h ▸ List.mem_cons_self p.1 (keysOf rest))
          · exact Or.inl h
        · exact Or.inr (List.mem_cons_of_mem p.1 h)
      · rintro (h | h)
        · refine Or.inl ?_
          rw [memKV_setKV, h]
          simp
        · rcases List.mem_cons.mp h with h | h
          · refine Or.inl ?_
            rw [memKV_setKV]
            have : decide (p.1 = t) = true := decide_eq_true h.symm
            rw [this]
            simp
          · exact Or.inr h
  have h0 := main pairs []
  rw [seedCacheOf]
  rw [h0]
  constructor
  · rintro (h | h)
    · simp [memKV, lookupKV] at h
    · exact h
  · exact Or.inr

lemma mem_initLaunch {dm : DepsMap} {cache0 : Cache} {t : Task} :
    t ∈ initLaunch dm cache0 ↔
      ∃ p ∈ dm, p.1 = t ∧ countUncached cache0 p.2 = 0 ∧ memKV cache0 p.1 = false := by
  rw [initLaunch]
  constructor
  · intro h
    rcases List.mem_map.mp h with ⟨p, hp, rfl⟩
    rcases List.mem_filter.mp hp with ⟨hpm, hcond⟩
    rcases Bool.and_eq_true_iff.mp hcond with ⟨h1, h2⟩
    refine ⟨p, hpm, rfl, ?_, ?_⟩
    · exact beq_iff_eq.mp h1
    · simpa using h2
  · rintro ⟨p, hp, rfl, h1, h2⟩
    refine List.mem_map.mpr ⟨p, List.mem_filter.mpr ⟨hp, ?_⟩, rfl⟩
    rw [Bool.and_eq_true_iff]
    constructor
    · exact beq_iff_eq.mpr h1
    · simp [h2]

/-- The safety invariant every reachable state of a run satisfies, for a
graph with distinct keys and entry points that target distinct root
tasks.  It ties together the write-once discipline, the at-most-once
launch discipline, the readiness accounting and the
producers-cached-before-launch guarantee. -/
structure Inv (dm : DepsMap) (pairs : List (Task × Value)) (s : SchedState) : Prop where
  writesN : s.writes.Nodup
  invokedN : s.invoked.Nodup
  runningN : s.running.Nodup
  run_sub : ∀ t ∈ s.running, t ∈ s.invoked
  inv_keys : ∀ t ∈ s.invoked, memKV dm t = true
  inv_deps : ∀ t ∈ s.invoked, ∀ d ∈ depsOfT dm t, memKV s.cache d = true
  cache_src : ∀ t, memKV s.cache t = true →
    t ∈ keysOf pairs ∨ (t ∈ s.invoked ∧ t ∉ s.running)
  run_uncached : ∀ t ∈ s.running, memKV s.cache t = false
  inv_unseeded : ∀ t ∈ s.invoked, t ∉ keysOf pairs
  rem_acc : ∀ p ∈ dm, p.1 ∉ s.invoked →
    lookupKV s.rem p.1 = some ((countUncached s.cache p.2 : Int))
  rem_inv : ∀ p ∈ dm, p.1 ∈ s.invoked → ∃ z : Int, z ≤ 0 ∧ lookupKV s.rem p.1 = some z
  writes_iff : ∀ t, t ∈ s.writes ↔ memKV s.cache t = true
  failed_spec : ∀ fn e, s.failed = some (fn, e) →
    fn ∈ s.invoked ∧ memKV s.cache fn = false ∧ fn ∉ s.running

lemma inv_init {dm : DepsMap} {pairs : List (Task × Value)}
    (hnd : (keysOf dm).Nodup) (hseed : RootSeeds dm pairs) :
    Inv dm pairs (initState dm pairs) := by
  have hlaunch_nodup : (initLaunch dm (seedCacheOf pairs)).Nodup := by
    have hsub : List.Sublist (initLaunch dm (seedCacheOf pairs)) (keysOf dm) := by
      rw [initLaunch, keysOf]
      exact (List.filter_sublist dm).map (fun p => p.1)
    exact List.Nodup.sublist hsub hnd
  have hlk : ∀ t ∈ initLaunch dm (seedCacheOf pairs),
      ∃ p ∈ dm, p.1 = t ∧ countUncached (seedCacheOf pairs) p.2 = 0 ∧
        memKV (seedCacheOf pairs) p.1 = false :=
    fun t ht => mem_initLaunch.mp ht
  refine ⟨hseed.1, hlaunch_nodup, hlaunch_nodup, fun t ht => ht, ?_, ?_, ?_, ?_, ?_, ?_, ?_, ?_, ?_⟩
  · intro t ht
    obtain ⟨p, hp, rfl, _, _⟩ := hlk t ht
    exact (memKV_iff_keys dm p.1).mpr (List.mem_map_of_mem (fun q => q.1) hp)
  · intro t ht d hd
    obtain ⟨p, hp, rfl, hz, _⟩ := hlk t ht
    have hdeps : depsOfT dm p.1 = p.2 := by
      rw [depsOfT, lookupKV_eq_some_of_mem hnd hp]
      rfl
    rw [hdeps] at hd
    exact countUncached_eq_zero.mp hz d hd
  · intro t ht
    exact Or.inl (memKV_seedCacheOf.mp ht)
  · intro t ht
    obtain ⟨p, hp, rfl, _, hm⟩ := hlk t ht
    exact hm
  · intro t ht hks
    obtain ⟨p, hp, rfl, _, hm⟩ := hlk t ht
    rw [memKV_seedCacheOf.mpr hks] at hm
    cases hm
  · intro p hp _
    exact lookupKV_map_self _ hnd hp
  · intro p hp hpin
    obtain ⟨q, hq, hqe, hz, _⟩ := hlk p.1 hpin
    have heq : q = p := mem_unique_of_nodup_keys hnd hq hp hqe
    subst heq
    refine ⟨0, le_refl 0, ?_⟩
    have hgoal : lookupKV (initState dm pairs).rem q.1 =
        some ((countUncached (seedCacheOf pairs) q.2 : Int)) :=
      lookupKV_map_self _ hnd hq
    rw [hz] at hgoal
    simpa using hgoal
  · intro t
    exact Iff.symm memKV_seedCacheOf
  · intro fn e h
    cases h

lemma inv_step {sig : Sig} {body : Body} {dm : DepsMap} {pairs : List (Task × Value)}
    {s s2 : SchedState} (hnd : (keysOf dm).Nodup) (hseed : RootSeeds dm pairs)
    (hI : Inv dm pairs s) (hstep : Step sig body dm s s2) : Inv dm pairs s2 := by
  cases hstep with
  | @complete fn v hfail hrun hexec =>
    have hfninv : fn ∈ s.invoked := hI.run_sub fn hrun
    have hfnkey : memKV dm fn = true := hI.inv_keys fn hfninv
    have hfnunc : memKV s.cache fn = false := hI.run_uncached fn hrun
    have hH1 : ∀ p ∈ dm, p.1 ∉ s.invoked → p.1 ∉ ([] : List Task) →
        lookupKV s.rem p.1 =
          some ((countUncached (setKV s.cache fn v) p.2 : Int) +
            (countT p.1 (dependentsOf dm fn) : Int)) := by
      intro p hp hpi _
      have hacc := hI.rem_acc p hp hpi
      rw [hacc]
      have hcnt : countT p.1 (dependentsOf dm fn) = countT fn p.2 :=
        countT_dependentsOf hnd hp fn
      have hsum : countUncached (setKV s.cache fn v) p.2 + countT fn p.2 =
          countUncached s.cache p.2 := countUncached_setKV hfnunc p.2
      rw [hcnt]
      congr 1
      omega
    have hH2 : ∀ p ∈ dm, p.1 ∈ s.invoked ∨ p.1 ∈ ([] : List Task) →
        ∃ z : Int, z ≤ 0 ∧ lookupKV s.rem p.1 = some z := by
      intro p hp hpin
      rcases hpin with h | h
      · exact hI.rem_inv p hp h
      · cases h
    obtain ⟨hp1, hp2, hpnd, hpni, hpprop, _, hpsub⟩ :=
      decLaunch_spec dm (setKV s.cache fn v) s.invoked hnd (dependentsOf dm fn) s.rem []
        (fun t ht => mem_dependentsOf ht) hH1 hH2 List.nodup_nil
        (fun t ht => absurd ht (List.not_mem_nil t))
        (fun t ht => absurd ht (List.not_mem_nil t))
    have hsubL : ∀ t ∈ (decLaunch (dependentsOf dm fn) s.rem []).2,
        t ∈ dependentsOf dm fn := by
      intro t ht
      rcases hpsub t ht with h | h
      · cases h
      · exact h
    have hfn_nw : fn ∉ s.writes := by
      intro hw
      rw [(hI.writes_iff fn).mp hw] at hfnunc
      cases hfnunc
    have hnewL_unseeded : ∀ t ∈ (decLaunch (dependentsOf dm fn) s.rem []).2,
        t ∉ keysOf pairs := by
      intro t ht hks
      rcases List.mem_map.mp hks with ⟨pr, hpr, rfl⟩
      have hroot : lookupKV dm pr.1 = some [] := hseed.2 pr hpr
      have hdep : fn ∈ depsOfT dm pr.1 := producer_mem_of_dependent hnd (hsubL _ ht)
      rw [depsOfT, hroot] at hdep
      cases hdep
    have hnewL_uncached : ∀ t ∈ (decLaunch (dependentsOf dm fn) s.rem []).2,
        memKV (setKV s.cache fn v) t = false := by
      intro t ht
      have hti : t ∉ s.invoked := hpni t ht
      have htfn : t ≠ fn := fun he => hti (he ▸ hfninv)
      have hmc : memKV (setKV s.cache fn v) t = memKV s.cache t := by
        rw [memKV_setKV]
        have hdec : decide (fn = t) = false := decide_eq_false (fun he => htfn he.symm)
        rw [hdec]
        simp
      rw [hmc]
      cases hm : memKV s.cache t
      · rfl
      · rcases hI.cache_src t hm with h | h
        · exact absurd h (hnewL_unseeded t ht)
        · exact absurd h.1 hti
    have hcommit : commitStep dm s fn v =
        { cache := setKV s.cache fn v
          rem := (decLaunch (dependentsOf dm fn) s.rem []).1
          running := s.running.erase fn ++ (decLaunch (dependentsOf dm fn) s.rem []).2
          invoked := s.invoked ++ (decLaunch (dependentsOf dm fn) s.rem []).2
          writes := s.writes ++ [fn]
          failed := none } := rfl
    rw [hcommit]
    refine ⟨?_, ?_, ?_, ?_, ?_, ?_, ?_, ?_, ?_, ?_, ?_, ?_, ?_⟩
    · -- writes stay duplicate-free: fn was never written before
      refine List.Nodup.append hI.writesN (List.nodup_singleton fn) ?_
      intro a ha hb
      rcases List.mem_singleton.mp hb with rfl
      exact hfn_nw ha
    · -- invocation history stays duplicate-free
      refine List.Nodup.append hI.invokedN hpnd ?_
      intro a ha hb
      exact hpni a hb ha
    · refine List.Nodup.append (hI.runningN.erase fn) hpnd ?_
      intro a ha hb
      exact hpni a hb (hI.run_sub a (List.mem_of_mem_erase ha))
    · intro t ht
      rcases List.mem_append.mp ht with h | h
      · exact List.mem_append.mpr
          (Or.inl (hI.run_sub t (List.mem_of_mem_erase h)))
      · exact List.mem_append.mpr (Or.inr h)
    · intro t ht
      rcases List.mem_append.mp ht with h | h
      · exact hI.inv_keys t h
      · exact (hpprop t h).1
    · intro t ht d hd
      rcases List.mem_append.mp ht with h | h
      · exact memKV_setKV_of_mem fn v (hI.inv_deps t h d hd)
      · exact countUncached_eq_zero.mp (hpprop t h).2 d hd
    · intro t ht
      rw [memKV_setKV] at ht
      rcases Bool.or_eq_true_iff.mp ht with h | h
      · rcases of_decide_eq_true h with rfl
        refine Or.inr ⟨List.mem_append.mpr (Or.inl hfninv), ?_⟩
        intro hm
        rcases List.mem_append.mp hm with h2 | h2
        · exact ((List.Nodup.mem_erase_iff hI.runningN).mp h2).1 rfl
        · exact hpni fn h2 hfninv
      · rcases hI.cache_src t h with h2 | h2
        · exact Or.inl h2
        · refine Or.inr ⟨List.mem_append.mpr (Or.inl h2.1), ?_⟩
          intro hm
          rcases List.mem_append.mp hm with h3 | h3
          · exact h2.2 (List.mem_of_mem_erase h3)
          · exact hpni t h3 h2.1
    · intro t ht
      rcases List.mem_append.mp ht with h | h
      · have h2 := (List.Nodup.mem_erase_iff hI.runningN).mp h
        rw [memKV_setKV]
        have hdec : decide (fn = t) = false := decide_eq_false (fun he => h2.1 he.symm)
        rw [hdec, hI.run_uncached t h2.2]
        rfl
      · exact hnewL_uncached t h
    · intro t ht
      rcases List.mem_append.mp ht with h | h
      · exact hI.inv_unseeded t h
      · exact hnewL_unseeded t h
    · intro p hp hpni2
      refine hp1 p hp ?_ ?_
      · exact fun h => hpni2 (List.mem_append.mpr (Or.inl h))
      · exact fun h => hpni2 (List.mem_append.mpr (Or.inr h))
    · intro p hp hpin
      exact hp2 p hp (List.mem_append.mp hpin)
    · intro t
      rw [List.mem_append, List.mem_singleton, hI.writes_iff t, memKV_setKV]
      constructor
      · rintro (h | rfl)
        · rw [h]
          simp
        · simp
      · intro h
        rcases Bool.or_eq_true_iff.mp h with h | h
        · exact Or.inr (of_decide_eq_true h).symm
        · exact Or.inl h
    · intro fn2 e2 h
      cases h
  | @fail fn e hfail hrun hexec =>
    have hfninv := hI.run_sub fn hrun
    have hfnunc := hI.run_uncached fn hrun
    have hfs : failStep s fn e =
        { cache := s.cache, rem := s.rem, running := s.running.erase fn,
          invoked := s.invoked, writes := s.writes, failed := some (fn, e) } := rfl
    rw [hfs]
    refine ⟨hI.writesN, hI.invokedN, hI.runningN.erase fn, ?_, hI.inv_keys, hI.inv_deps,
      ?_, ?_, hI.inv_unseeded, hI.rem_acc, hI.rem_inv, hI.writes_iff, ?_⟩
    · intro t ht
      exact hI.run_sub t (List.mem_of_mem_erase ht)
    · intro t ht
      rcases hI.cache_src t ht with h | h
      · exact Or.inl h
      · exact Or.inr ⟨h.1, fun hm => h.2 (List.mem_of_mem_erase hm)⟩
    · intro t ht
      exact hI.run_uncached t (List.mem_of_mem_erase ht)
    · intro fn2 e2 h
      cases h
      exact ⟨hfninv, hfnunc, fun hm => ((List.Nodup.mem_erase_iff hI.runningN).mp hm).1 rfl⟩

lemma inv_reachable {sig : Sig} {body : Body} {dm : DepsMap} {pairs : List (Task × Value)}
    {s : SchedState} (hnd : (keysOf dm).Nodup) (hseed : RootSeeds dm pairs)
    (hreach : Reachable sig body dm pairs s) : Inv dm pairs s := by
  induction hreach with
  | refl => exact inv_init hnd hseed
  | tail _ hstep ih => exact inv_step hnd hseed ih hstep

lemma seed_root {dm : DepsMap} {pairs : List (Task × Value)} (hseed : RootSeeds dm pairs)
    {t : Task} (h : t ∈ keysOf pairs) : depsOfT dm t = [] := by
  rcases List.mem_map.mp h with ⟨pr, hpr, rfl⟩
  rw [depsOfT, hseed.2 pr hpr]
  rfl

lemma cached_deps_cached {dm : DepsMap} {pairs : List (Task × Value)} {s : SchedState}
    (hseed : RootSeeds dm pairs) (hI : Inv dm pairs s) :
    ∀ t, memKV s.cache t = true → ∀ d ∈ depsOfT dm t, memKV s.cache d = true := by
  intro t ht d hd
  rcases hI.cache_src t ht with h | h
  · rw [seed_root hseed h] at hd
    cases hd
  · exact hI.inv_deps t h.1 d hd

lemma producer_cached {dm : DepsMap} {pairs : List (Task × Value)} {s : SchedState}
    (hseed : RootSeeds dm pairs) (hI : Inv dm pairs s) :
    ∀ {t b : Task}, ProducerPath dm t b →
      (memKV s.cache t = true ∨ t ∈ s.invoked) → memKV s.cache b = true := by
  intro t b hp
  induction hp with
  | @direct t d hd =>
    intro h
    rcases h with h | h
    · exact cached_deps_cached hseed hI t h d hd
    · exact hI.inv_deps t h d hd
  | @trans t d e hd hp2 ih =>
    intro h
    have hdc : memKV s.cache d = true := by
      rcases h with h | h
      · exact cached_deps_cached hseed hI t h d hd
      · exact hI.inv_deps t h d hd
    exact ih (Or.inl hdc)

lemma no_step_of_failed {sig : Sig} {body : Body} {dm : DepsMap} {s : SchedState}
    (h : ¬ s.failed = none) : ∀ s2, ¬ Step sig body dm s s2 := by
  intro s2 hs
  cases hs with
  | complete h0 _ _ => exact h h0
  | fail h0 _ _ => exact h h0

/-! ### Claims C2, C3, C6, C7 -/

/-- Claim C2: within one run whose entry points target pairwise-distinct
root tasks, the cache is write-once per key — the log of cache-key writes
(seeds and completions alike) never repeats a key — and no task function
is ever invoked twice — the launch log never repeats a task. -/
theorem cache_write_once_and_tasks_invoked_at_most_once
    (sig : Sig) (body : Body) (dm : DepsMap) (pairs : List (Task × Value)) (s : SchedState)
    (hwf : GraphWF sig dm) (hseed : RootSeeds dm pairs)
    (hreach : Reachable sig body dm pairs s) :
    s.writes.Nodup ∧ s.invoked.Nodup :=
  ⟨(inv_reachable hwf.1 hseed hreach).writesN, (inv_reachable hwf.1 hseed hreach).invokedN⟩

/-- The diamond graph as `Workflow.__init__` records it (post-order). -/
def dmD : DepsMap := [(0, []), (1, [0]), (2, [0]), (3, [1, 2])]

lemma sigD_builds : buildAll sigD 10 [3] = some dmD := by decide

/-- Witness for C2 at the diamond workflow seeded at its root. -/
theorem cache_write_once_witness :
    (initState dmD [(0, Value.nat 5)]).writes.Nodup ∧
    (initState dmD [(0, Value.nat 5)]).invoked.Nodup :=
  cache_write_once_and_tasks_invoked_at_most_once sigD (fun _ _ => .ok .unit) dmD
    [(0, .nat 5)] (initState dmD [(0, .nat 5)]) (by decide) (by decide)
    Relation.ReflTransGen.refl

/-- Claim C3: within one run whose entry points target distinct root
tasks, whenever a task has been launched, every direct and transitive
producer of it already has a result committed to the cache (and the cache
only grows, so this still holds at the moment the launched body actually
reads its arguments). -/
theorem producers_cached_when_task_invoked
    (sig : Sig) (body : Body) (dm : DepsMap) (pairs : List (Task × Value)) (s : SchedState)
    (hwf : GraphWF sig dm) (hseed : RootSeeds dm pairs)
    (hreach : Reachable sig body dm pairs s) (fn : Task) (hfn : fn ∈ s.invoked) :
    ∀ b, ProducerPath dm fn b → memKV s.cache b = true := by
  intro b hp
  exact producer_cached hseed (inv_reachable hwf.1 hseed hreach) hp (Or.inr hfn)

/-- Witness for C3: in the seeded diamond, task 1 is launched initially
and its producer 0 is cached. -/
theorem producers_cached_witness :
    memKV (initState dmD [(0, Value.nat 5)]).cache 0 = true :=
  producers_cached_when_task_invoked sigD (fun _ _ => .ok .unit) dmD [(0, .nat 5)]
    (initState dmD [(0, .nat 5)]) (by decide) (by decide) Relation.ReflTransGen.refl
    1 (by decide) 0 (ProducerPath.direct (by decide))

/-- Claim C6: when an invoked task's body fails, the run as a whole fails
with that task's error (the failure is recorded against that task and the
completion loop is abandoned: no further transition exists), and no task
depending on the failed task, directly or transitively, is ever
invoked. -/
theorem task_failure_fails_run_and_blocks_dependents
    (sig : Sig) (body : Body) (dm : DepsMap) (pairs : List (Task × Value)) (s : SchedState)
    (hwf : GraphWF sig dm) (hseed : RootSeeds dm pairs)
    (hreach : Reachable sig body dm pairs s) (fn : Task) (msg : String)
    (hfail : s.failed = some (fn, .taskErr fn msg)) :
    fn ∈ s.invoked ∧
    (∀ t, ProducerPath dm t fn → t ∉ s.invoked) ∧
    (∀ s2, ¬ Step sig body dm s s2) := by
  have hI := inv_reachable hwf.1 hseed hreach
  obtain ⟨hinv, hunc, _⟩ := hI.failed_spec fn _ hfail
  refine ⟨hinv, ?_, no_step_of_failed (by rw [hfail]; intro h; cases h)⟩
  intro t hp ht
  have hc := producer_cached hseed hI hp (Or.inr ht)
  rw [hc] at hunc
  cases hunc

/-- The two-task chain used to exhibit failure propagation: task 1
depends on task 0, whose body raises. -/
def sigF : Sig := fun t =>
  match t with
  | 1 => [Param.mk "a" (.val (DependsPy 0 true))]
  | _ => []

def dmF : DepsMap := [(0, []), (1, [0])]

def bodyF : Body := fun fn _ => if fn = 0 then .error "boom" else .ok .unit

/-- Witness for C6: after task 0 fails, its dependent task 1 was never
invoked. -/
theorem task_failure_witness :
    1 ∉ (failStep (initState dmF []) 0 (.taskErr 0 "boom")).invoked :=
  (task_failure_fails_run_and_blocks_dependents sigF bodyF dmF []
    (failStep (initState dmF []) 0 (.taskErr 0 "boom"))
    (by decide) (by decide)
    (Relation.ReflTransGen.single (Step.fail rfl (by decide) rfl))
    0 "boom" rfl).2.1 1 (ProducerPath.direct (by decide))

/-- The scan of `_exec` raises `Missing required param` for the first
parameter with no default, provided every earlier marker parameter's
producer is cached (which the scheduler guarantees) — matching
workflow.py line 114, which names the parameter and the task. -/
lemma buildKwargs_missing (cache : Cache) (fn : Task) (pn : String) (post : List Param) :
    ∀ pre : List Param, (∀ q ∈ pre, q.default ≠ .empty) →
    (∀ q ∈ pre, ∀ dep, q.default.markerQ = some dep → memKV cache dep = true) →
    buildKwargs cache fn (pre ++ Param.mk pn .empty :: post) =
      .error (.missingArg fn pn) := by
  intro pre
  induction pre with
  | nil =>
    intro _ _
    rfl
  | cons q rest ih =>
    intro hne hmk
    have hstep := ih (fun r hr => hne r (List.mem_cons_of_mem q hr))
      (fun r hr dep hd => hmk r (List.mem_cons_of_mem q hr) dep hd)
    rw [List.cons_append]
    cases hq : q.default.markerQ with
    | some dep =>
      have hc := hmk q (List.mem_cons_self q rest) dep hq
      obtain ⟨w, hw⟩ := Option.isSome_iff_exists.mp hc
      simp only [buildKwargs, hq, hw, hstep]
    | none =>
      cases hqd : q.default with
      | empty => exact absurd hqd (hne q (List.mem_cons_self q rest))
      | val o =>
        rw [hqd] at hq
        simp only [buildKwargs, hqd, hq, hstep]

/-- Claim C7: if a launched task has a parameter with no injected marker
and no literal default (and hence, since the task was launched at all, no
entry point satisfied the task), invoking it fails with a MissingArgument
error naming the task and the parameter, that failure aborts the run (no
further transition exists from the failed state), and no dependent of the
task, direct or transitive, is ever invoked. -/
theorem missing_required_param_aborts_run
    (sig : Sig) (body : Body) (dm : DepsMap) (pairs : List (Task × Value)) (s : SchedState)
    (hwf : GraphWF sig dm) (hseed : RootSeeds dm pairs)
    (hreach : Reachable sig body dm pairs s) (fn : Task) (pn : String)
    (pre post : List Param)
    (hfail : s.failed = none) (hrun : fn ∈ s.running)
    (hsig : sig fn = pre ++ Param.mk pn .empty :: post)
    (hpre : ∀ q ∈ pre, q.default ≠ .empty) :
    execTask sig body s.cache fn = .error (.missingArg fn pn) ∧
    Step sig body dm s (failStep s fn (.missingArg fn pn)) ∧
    (∀ t, ProducerPath dm t fn → t ∉ (failStep s fn (.missingArg fn pn)).invoked) ∧
    (∀ s2, ¬ Step sig body dm (failStep s fn (.missingArg fn pn)) s2) := by
  have hI := inv_reachable hwf.1 hseed hreach
  have hfninv := hI.run_sub fn hrun
  have hfnkey := hI.inv_keys fn hfninv
  obtain ⟨ds, hds⟩ := Option.isSome_iff_exists.mp hfnkey
  have hdm := mem_of_lookupKV hds
  have hdd : ds = directDeps sig fn := (hwf.2 _ hdm).1
  have hmk : ∀ q ∈ pre, ∀ dep, q.default.markerQ = some dep →
      memKV s.cache dep = true := by
    intro q hq dep hdep
    have hqin : q ∈ sig fn := by
      rw [hsig]
      exact List.mem_append.mpr (Or.inl hq)
    have hdin : dep ∈ directDeps sig fn := List.mem_filterMap.mpr ⟨q, hqin, hdep⟩
    have hdep2 : dep ∈ depsOfT dm fn := by
      rw [depsOfT, hds]
      show dep ∈ ds
      rw [hdd]
      exact hdin
    exact hI.inv_deps fn hfninv dep hdep2
  have hexec : execTask sig body s.cache fn = .error (.missingArg fn pn) := by
    rw [execTask, hsig, buildKwargs_missing s.cache fn pn post pre hpre hmk]
  refine ⟨hexec, Step.fail hfail hrun hexec, ?_, ?_⟩
  · intro t hp ht
    have hc := producer_cached hseed hI hp (Or.inr ht)
    rw [hI.run_uncached fn hrun] at hc
    cases hc
  · exact no_step_of_failed (fun h => Option.noConfusion h)

/-- A single task with one parameter that has neither a marker nor a
literal default. -/
def sigM : Sig := fun t =>
  match t with
  | 0 => [Param.mk "x" PDefault.empty]
  | _ => []

/-- Witness for C7: invoking the task fails with the error naming the
task and the parameter. -/
theorem missing_required_param_witness :
    execTask sigM (fun _ _ => .ok .unit) (initState [(0, [])] []).cache 0 =
      .error (.missingArg 0 "x") :=
  (missing_required_param_aborts_run sigM (fun _ _ => .ok .unit) [(0, [])] []
    (initState [(0, [])] []) (by decide) (by decide) Relation.ReflTransGen.refl
    0 "x" [] [] rfl (by decide) rfl (fun q hq => absurd hq (List.not_mem_nil q))).1

end JFlow
